import Mathlib

/-!
Shallow embedding of the definition-resolution core of
`src/replays-parser/generate_ids.py` (`collect_methods`, `get_def_path`,
`to_indexed_dict`), together with proofs settling the frozen claims about
it.

Modelling conventions:
* A parsed `.def` file (`DefNode`) records the `Implements` interface list
  and, for each of the four member categories, the raw child declarations.
  An `<Interface>` element whose text is `None` (on which
  `interface.text.strip()` raises `AttributeError`, caught by the outer
  `except`) is modelled as a `none` entry of `implements`.
* The filesystem is an explicit finite environment `Env`:
  `defs` models `get_def_path` (name to `.def` path, first match), and
  `files` models `ET.parse` (path to parsed node, `none` = parse failure).
* Python `dict` is modelled as an association list with Python's insertion
  semantics: assigning to an existing key replaces it in place, a new key
  is appended (`dinsert`); `dict.update` folds `dinsert` (`dupdate`).
* The recursion of `collect_methods` is driven by an explicit fuel
  parameter; `collect_methods` itself runs with fuel `env.defs.length + 1`,
  which is shown sufficient (the value is independent of any fuel at least
  that large).
-/

/-- A raw member declaration: one child element of a category section.
`tag` is the element tag (the member name), `args` the stripped texts of
its `Arg` children, `hasDetailDistance` whether a `DetailDistance` child
is present, and `typeTag` the stripped text of a `Type` child (`none`
when the child is absent or its text is falsy). -/
structure Decl where
  tag : String
  args : List String
  hasDetailDistance : Bool
  typeTag : Option String
deriving DecidableEq, Repr

/-- A parsed definition file. A `none` entry of `implements` models an
`<Interface>` element with no text, which makes `interface.text.strip()`
raise inside the `try` block. -/
structure DefNode where
  implements : List (Option String)
  clientMethods : List Decl
  properties : List Decl
  cellMethods : List Decl
  baseMethods : List Decl
deriving DecidableEq, Repr

/-- The abstract filesystem: `defs` is the `get_def_path` table (entity or
interface name to `.def` path, first match wins), `files` the `ET.parse`
table (path to parsed content; `none` models a parse failure). -/
structure Env where
  defs : List (String × String)
  files : List (String × Option DefNode)
deriving Repr

/-- Descriptor stored in a category map: `{'args': [...]}` for method
categories, `{'type': t}` for `Properties`. -/
inductive Desc where
  | method (args : List String)
  | prop (type : String)
deriving DecidableEq, Repr

/-- A Python dict keyed by member name, as an insertion-ordered
association list. -/
abbrev Dict := List (String × Desc)

/-- `d[k]` lookup (first entry with the key; keys are unique in every
dict the program builds). -/
def dfind (m : Dict) (k : String) : Option Desc :=
  (m.find? (fun q => q.1 == k)).map (fun q => q.2)

/-- `d[k] = v` with Python dict semantics: an existing key keeps its
position and gets the new value, a fresh key is appended. -/
def dinsert (m : Dict) (k : String) (v : Desc) : Dict :=
  if m.any (fun q => q.1 == k) then
    m.map (fun q => if q.1 = k then (k, v) else q)
  else
    m ++ [(k, v)]

/-- `d.update(other)`: fold `dinsert` over `other` in its order. -/
def dupdate (m other : Dict) : Dict :=
  other.foldl (fun acc q => dinsert acc q.1 q.2) m

/-- The four category maps returned by `collect_methods`. -/
structure Categories where
  clientMethods : Dict
  properties : Dict
  cellMethods : Dict
  baseMethods : Dict
deriving DecidableEq, Repr

def Categories.empty : Categories := ⟨[], [], [], []⟩

/-- One category name, for stating facts uniformly over the four maps. -/
inductive Cat where
  | clientMethods
  | properties
  | cellMethods
  | baseMethods
deriving DecidableEq, Repr

def Categories.get (c : Categories) : Cat → Dict
  | Cat.clientMethods => c.clientMethods
  | Cat.properties => c.properties
  | Cat.cellMethods => c.cellMethods
  | Cat.baseMethods => c.baseMethods

def DefNode.cat (n : DefNode) : Cat → List Decl
  | Cat.clientMethods => n.clientMethods
  | Cat.properties => n.properties
  | Cat.cellMethods => n.cellMethods
  | Cat.baseMethods => n.baseMethods

def Cat.isProp : Cat → Bool
  | Cat.properties => true
  | _ => false

/-- `get_def_path`: first matching entry of the lookup table. -/
def getDefPath (env : Env) (nm : String) : Option String :=
  (env.defs.find? (fun q => q.1 == nm)).map (fun q => q.2)

/-- `ET.parse` on a path: parsed node, or `none` on parse failure. -/
def parseFile (env : Env) (p : String) : Option DefNode :=
  match env.files.find? (fun q => q.1 == p) with
  | some q => q.2
  | none => none

/-- The exclusion test of `collect_methods`: a declaration is excluded
when it has a `DetailDistance` child or zero `Arg` children.  The source
applies this test to every category, `Properties` included. -/
def excluded (d : Decl) : Bool :=
  d.hasDetailDistance || d.args.length == 0

/-- The descriptor written for a surviving declaration: for `Properties`
the `Type` child's text (default `"UNKNOWN"`), otherwise the `Arg` list. -/
def descOf (isProp : Bool) (d : Decl) : Desc :=
  if isProp then Desc.prop (d.typeTag.getD "UNKNOWN") else Desc.method d.args

/-- Processing one local declaration: excluded declarations are skipped,
surviving ones are written into the map. -/
def processDecl (isProp : Bool) (m : Dict) (d : Decl) : Dict :=
  if excluded d then m else dinsert m d.tag (descOf isProp d)

/-- Processing one category section's local declarations in document
order. -/
def processSection (isProp : Bool) (m : Dict) (ds : List Decl) : Dict :=
  ds.foldl (processDecl isProp) m

/-- Step 2 of `collect_methods`: local declarations of all four sections,
written on top of the inherited maps. -/
def processLocals (acc : Categories) (node : DefNode) : Categories :=
  { clientMethods := processSection false acc.clientMethods node.clientMethods
    properties := processSection true acc.properties node.properties
    cellMethods := processSection false acc.cellMethods node.cellMethods
    baseMethods := processSection false acc.baseMethods node.baseMethods }

/-- `results[key].update(inherited[key])` for the four categories. -/
def mergeCats (a b : Categories) : Categories :=
  { clientMethods := dupdate a.clientMethods b.clientMethods
    properties := dupdate a.properties b.properties
    cellMethods := dupdate a.cellMethods b.cellMethods
    baseMethods := dupdate a.baseMethods b.baseMethods }

/-- The `Implements` loop of `collect_methods`.  `recurse` is the
recursive call at the current visitation state.  The boolean is `true`
when the loop ran to completion and `false` when it raised (a `none`
interface entry: `interface.text.strip()` on a text-less element), in
which case the partially accumulated maps are kept and local processing
is skipped, exactly as the `except` clause does. -/
def processInterfaces (recurse : String → Categories) (env : Env) :
    Categories → List (Option String) → Categories × Bool
  | acc, [] => (acc, true)
  | acc, none :: _ => (acc, false)
  | acc, some nm :: rest =>
    match getDefPath env nm with
    | some ipath => processInterfaces recurse env (mergeCats acc (recurse ipath)) rest
    | none => processInterfaces recurse env acc rest

/-- `collect_methods(base_path, def_path, visited)`, with fuel.  The
cycle test precedes everything; a parse failure yields the freshly
initialised (empty) maps; the visitation list passed to children is the
current list with this path pushed — the `finally: visited.pop()` of the
source means the caller's own list is unchanged once a child returns,
which the pure value-passing here reproduces. -/
def collectF : Nat → Env → String → List String → Categories
  | f, env, p, v =>
    if p ∈ v then Categories.empty
    else
      match f with
      | 0 => Categories.empty
      | Nat.succ g =>
        match parseFile env p with
        | none => Categories.empty
        | some node =>
          let r := processInterfaces (fun q => collectF g env q (v ++ [p])) env
            Categories.empty node.implements
          if r.2 then processLocals r.1 node else r.1

/-- Distinct `.def` paths the lookup table can produce. -/
def pathsOf (env : Env) : List String :=
  (env.defs.map (fun q => q.2)).dedup

/-- Number of producible paths not yet visited. -/
def remainingPaths (env : Env) (v : List String) : Nat :=
  ((pathsOf env).filter (fun x => !decide (x ∈ v))).length

/-- Fuel that is always sufficient for a top-level call. -/
def suffFuel (env : Env) : Nat := env.defs.length + 1

/-- Top-level `collect_methods(base_path, def_path)`: fresh visitation
list, enough fuel. -/
def collect_methods (env : Env) (p : String) : Categories :=
  collectF (suffFuel env) env p []

/-- Python's string comparison on the underlying character sequences:
plain lexicographic order on code points. -/
def lexLe : List Char → List Char → Bool
  | [], _ => true
  | _ :: _, [] => false
  | x :: xs, y :: ys => if x < y then true else if y < x then false else lexLe xs ys

/-- `a <= b` for Python strings (code-point lexicographic). -/
def strLeB (a b : String) : Bool := lexLe a.data b.data

/-- `to_indexed_dict`'s `sorted(data_dict.keys())`: Python `sorted` is a
stable sort under the code-point lexicographic string order. -/
def sortedKeys (d : Dict) : List String :=
  (d.map (fun q => q.1)).mergeSort strLeB

/-- `to_indexed_dict`: sort the keys, then `enumerate` them, pairing each
index with the name and its stored descriptor. -/
def to_indexed_dict (d : Dict) : List (Nat × String × Desc) :=
  (sortedKeys d).enum.map (fun ik => (ik.1, ik.2, (dfind d ik.2).getD (Desc.method [])))

/-- Call trace of `collect_methods`: every `(def_path, visited)` pair at
which the function is entered, mirroring `collectF`'s recursion exactly
(the cycle short-circuit, fuel exhaustion, a parse failure and a `none`
interface entry all stop deeper calls). -/
def callsInterfaces (recurse : String → List (String × List String)) (env : Env) :
    List (Option String) → List (String × List String)
  | [] => []
  | none :: _ => []
  | some nm :: rest =>
    (match getDefPath env nm with
     | some ipath => recurse ipath
     | none => []) ++ callsInterfaces recurse env rest

def callsF : Nat → Env → String → List String → List (String × List String)
  | f, env, p, v =>
    (p, v) ::
      (if p ∈ v then []
       else
         match f with
         | 0 => []
         | Nat.succ g =>
           match parseFile env p with
           | none => []
           | some node =>
             callsInterfaces (fun q => callsF g env q (v ++ [p])) env node.implements)

/-! ### Dictionary lemmas -/

theorem dfind_cons (q : String × Desc) (m : Dict) (k : String) :
    dfind (q :: m) k = if q.1 = k then some q.2 else dfind m k := by
  by_cases h : q.1 = k <;> simp [dfind, List.find?_cons, h]

theorem dfind_append_left (m1 m2 : Dict) (k : String) (v : Desc)
    (h : dfind m1 k = some v) : dfind (m1 ++ m2) k = some v := by
  induction m1 with
  | nil => simp [dfind] at h
  | cons p t ih =>
    rw [List.cons_append, dfind_cons]
    rw [dfind_cons] at h
    by_cases hp : p.1 = k
    · rwa [if_pos hp] at h ⊢
    · rw [if_neg hp] at h ⊢
      exact ih h

theorem dfind_append_right (m1 m2 : Dict) (k : String)
    (h : m1.any (fun q => q.1 == k) = false) :
    dfind (m1 ++ m2) k = dfind m2 k := by
  induction m1 with
  | nil => rfl
  | cons p t ih =>
    simp only [List.any_cons, Bool.or_eq_false_iff] at h
    rw [List.cons_append, dfind_cons, if_neg (by simpa using h.1), ih h.2]

theorem any_eq_false_of_dfind_none (m : Dict) (k : String) (h : dfind m k = none) :
    m.any (fun q => q.1 == k) = false := by
  induction m with
  | nil => rfl
  | cons p t ih =>
    rw [dfind_cons] at h
    by_cases hp : p.1 = k
    · rw [if_pos hp] at h
      simp at h
    · rw [if_neg hp] at h
      simp only [List.any_cons, Bool.or_eq_false_iff]
      exact ⟨by simpa using hp, ih h⟩

theorem dfind_map_replace_ne (m : Dict) (k k' : String) (v : Desc) (h : k' ≠ k) :
    dfind (m.map (fun q => if q.1 = k then (k, v) else q)) k' = dfind m k' := by
  induction m with
  | nil => rfl
  | cons p t ih =>
    rw [List.map_cons]
    by_cases hp : p.1 = k
    · rw [if_pos hp, dfind_cons, dfind_cons]
      have h1 : ¬ (((k, v) : String × Desc).1 = k') := fun hh => h hh.symm
      have h2 : ¬ (p.1 = k') := by
        rw [hp]
        exact fun hh => h hh.symm
      rw [if_neg h1, if_neg h2, ih]
    · rw [if_neg hp, dfind_cons, dfind_cons, ih]

theorem dfind_map_replace_eq (m : Dict) (k : String) (v : Desc)
    (h : m.any (fun q => q.1 == k) = true) :
    dfind (m.map (fun q => if q.1 = k then (k, v) else q)) k = some v := by
  induction m with
  | nil => simp at h
  | cons p t ih =>
    rw [List.map_cons]
    by_cases hp : p.1 = k
    · rw [if_pos hp, dfind_cons, if_pos rfl]
    · rw [if_neg hp, dfind_cons, if_neg hp]
      apply ih
      simp only [List.any_cons, Bool.or_eq_true] at h
      rcases h with h | h
      · exact absurd (by simpa using h) hp
      · exact h

/-- Lookup after a Python dict assignment. -/
theorem dfind_dinsert (m : Dict) (k k' : String) (v : Desc) :
    dfind (dinsert m k v) k' = if k' = k then some v else dfind m k' := by
  unfold dinsert
  by_cases hany : m.any (fun q => q.1 == k) = true
  · rw [if_pos hany]
    by_cases hk : k' = k
    · subst hk
      rw [if_pos rfl, dfind_map_replace_eq m k' v hany]
    · rw [if_neg hk, dfind_map_replace_ne m k k' v hk]
  · rw [if_neg hany]
    by_cases hk : k' = k
    · subst hk
      rw [if_pos rfl, dfind_append_right m _ k' (by rwa [Bool.not_eq_true] at hany), dfind_cons,
        if_pos rfl]
    · rw [if_neg hk]
      cases h' : dfind m k' with
      | some w => rw [dfind_append_left m _ k' w h']
      | none =>
        rw [dfind_append_right m _ k' (any_eq_false_of_dfind_none m k' h'), dfind_cons,
          if_neg (fun hh => hk hh.symm)]
        rfl

theorem keys_dinsert_nodup (m : Dict) (k : String) (v : Desc)
    (h : (m.map (fun q => q.1)).Nodup) : ((dinsert m k v).map (fun q => q.1)).Nodup := by
  unfold dinsert
  by_cases hany : m.any (fun q => q.1 == k) = true
  · rw [if_pos hany]
    have heq : (m.map (fun q => if q.1 = k then (k, v) else q)).map (fun q => q.1) =
        m.map (fun q => q.1) := by
      rw [List.map_map]
      refine List.map_congr_left (fun q _ => ?_)
      by_cases hq : q.1 = k
      · simp [hq]
      · simp [hq]
    rw [heq]
    exact h
  · rw [if_neg hany]
    have hk : k ∉ m.map (fun q => q.1) := by
      intro hmem
      rcases List.mem_map.mp hmem with ⟨q, hq, hq1⟩
      exact hany (List.any_eq_true.mpr ⟨q, hq, by simp [hq1]⟩)
    rw [List.map_append, List.nodup_append]
    refine ⟨h, List.nodup_singleton _, ?_⟩
    intro a ha hak
    rw [List.map_cons, List.map_nil, List.mem_singleton] at hak
    subst hak
    exact hk ha

theorem keys_dupdate_nodup (m other : Dict)
    (h : (m.map (fun q => q.1)).Nodup) : ((dupdate m other).map (fun q => q.1)).Nodup := by
  induction other generalizing m with
  | nil => exact h
  | cons p t ih => exact ih _ (keys_dinsert_nodup m p.1 p.2 h)

/-- Lookup through `dict.update`: a present entry comes from the original
dict or is literally one of the updating pairs. -/
theorem dfind_dupdate_some (m other : Dict) (k : String) (v : Desc)
    (h : dfind (dupdate m other) k = some v) :
    dfind m k = some v ∨ (k, v) ∈ other := by
  induction other generalizing m with
  | nil => exact Or.inl h
  | cons p t ih =>
    rcases ih (dinsert m p.1 p.2) h with h' | h'
    · rw [dfind_dinsert] at h'
      by_cases hk : k = p.1
      · rw [if_pos hk] at h'
        rw [Option.some_inj] at h'
        subst hk
        rw [← h']
        exact Or.inr (List.mem_cons_self _ _)
      · rw [if_neg hk] at h'
        exact Or.inl h'
    · exact Or.inr (List.mem_cons_of_mem _ h')

/-- With unique keys, membership determines lookup. -/
theorem dfind_of_mem (m : Dict) (k : String) (v : Desc)
    (hnd : (m.map (fun q => q.1)).Nodup) (h : (k, v) ∈ m) : dfind m k = some v := by
  induction m with
  | nil => simp at h
  | cons p t ih =>
    rw [List.map_cons, List.nodup_cons] at hnd
    rw [dfind_cons]
    rcases List.mem_cons.mp h with h' | h'
    · rw [← h']
      simp
    · have hk : p.1 ≠ k := by
        intro hpk
        exact hnd.1 (hpk ▸ List.mem_map.mpr ⟨(k, v), h', rfl⟩)
      rw [if_neg hk]
      exact ih hnd.2 h'

/-- `update` with a dict that lacks the key leaves the lookup unchanged. -/
theorem dfind_dupdate_not_mem (m other : Dict) (k : String)
    (h : ∀ v, (k, v) ∉ other) : dfind (dupdate m other) k = dfind m k := by
  induction other generalizing m with
  | nil => rfl
  | cons p t ih =>
    have hk : k ≠ p.1 := by
      intro hkp
      exact h p.2 (by rw [hkp]; exact List.mem_cons_self _ _)
    have step : dupdate m (p :: t) = dupdate (dinsert m p.1 p.2) t := rfl
    rw [step, ih _ (fun v hv => h v (List.mem_cons_of_mem _ hv)), dfind_dinsert, if_neg hk]

/-! ### Category-component lemmas -/

theorem mergeCats_get (a b : Categories) (c : Cat) :
    (mergeCats a b).get c = dupdate (a.get c) (b.get c) := by
  cases c <;> rfl

theorem processLocals_get (acc : Categories) (node : DefNode) (c : Cat) :
    (processLocals acc node).get c = processSection c.isProp (acc.get c) (node.cat c) := by
  cases c <;> rfl

theorem empty_get (c : Cat) : Categories.empty.get c = [] := by
  cases c <;> rfl

theorem categories_ext (a b : Categories) (h : ∀ c, a.get c = b.get c) : a = b := by
  cases a
  cases b
  have h1 := h Cat.clientMethods
  have h2 := h Cat.properties
  have h3 := h Cat.cellMethods
  have h4 := h Cat.baseMethods
  simp only [Categories.get] at h1 h2 h3 h4
  simp_all

/-! ### Local-declaration processing lemmas -/

theorem processSection_cons (b : Bool) (m : Dict) (d : Decl) (ds : List Decl) :
    processSection b m (d :: ds) = processSection b (processDecl b m d) ds := rfl

theorem processDecl_excluded (b : Bool) (m : Dict) (d : Decl) (h : excluded d = true) :
    processDecl b m d = m := by
  simp [processDecl, h]

theorem dfind_processDecl_ne (b : Bool) (m : Dict) (d : Decl) (k : String) (h : d.tag ≠ k) :
    dfind (processDecl b m d) k = dfind m k := by
  unfold processDecl
  by_cases he : excluded d = true
  · rw [if_pos he]
  · rw [if_neg he, dfind_dinsert, if_neg (fun hh => h hh.symm)]

/-- A run of local declarations that are all excluded (at the key of
interest) does not change the lookup: an excluded member is never
written. -/
theorem dfind_processSection_all_excluded (b : Bool) (m : Dict) (ds : List Decl) (k : String)
    (h : ∀ d ∈ ds, d.tag = k → excluded d = true) :
    dfind (processSection b m ds) k = dfind m k := by
  induction ds generalizing m with
  | nil => rfl
  | cons d t ih =>
    rw [processSection_cons,
      ih (processDecl b m d) (fun d' hd' => h d' (List.mem_cons_of_mem _ hd'))]
    by_cases htag : d.tag = k
    · rw [processDecl_excluded b m d (h d (List.mem_cons_self _ _) htag)]
    · exact dfind_processDecl_ne b m d k htag

/-- The last non-excluded local declaration with a given name determines
the final entry under that name, whatever was inherited. -/
theorem dfind_processSection_last (b : Bool) (m : Dict) (pre post : List Decl) (d : Decl)
    (hex : excluded d = false)
    (hpost : ∀ d' ∈ post, d'.tag = d.tag → excluded d' = true) :
    dfind (processSection b m (pre ++ d :: post)) d.tag = some (descOf b d) := by
  have hsplit : processSection b m (pre ++ d :: post) =
      processSection b (processDecl b (processSection b m pre) d) post := by
    unfold processSection
    rw [List.foldl_append, List.foldl_cons]
  rw [hsplit, dfind_processSection_all_excluded b _ post d.tag hpost]
  unfold processDecl
  rw [if_neg (by simp [hex]), dfind_dinsert, if_pos rfl]

/-- Every entry of a processed section comes from the incoming map or
from a non-excluded local declaration bearing that name. -/
theorem dfind_processSection_some (b : Bool) (m : Dict) (ds : List Decl) (k : String) (v : Desc)
    (h : dfind (processSection b m ds) k = some v) :
    dfind m k = some v ∨ ∃ d ∈ ds, d.tag = k ∧ excluded d = false ∧ v = descOf b d := by
  induction ds generalizing m with
  | nil => exact Or.inl h
  | cons d t ih =>
    rcases ih (processDecl b m d) h with h' | h'
    · unfold processDecl at h'
      by_cases he : excluded d = true
      · rw [if_pos he] at h'
        exact Or.inl h'
      · rw [if_neg he, dfind_dinsert] at h'
        by_cases hk : k = d.tag
        · rw [if_pos hk] at h'
          rw [Option.some_inj] at h'
          exact Or.inr ⟨d, List.mem_cons_self _ _, hk.symm,
            by rwa [Bool.not_eq_true] at he, h'.symm⟩
        · rw [if_neg hk] at h'
          exact Or.inl h'
    · rcases h' with ⟨d', hd', hrest⟩
      exact Or.inr ⟨d', List.mem_cons_of_mem _ hd', hrest⟩

theorem keys_processDecl_nodup (b : Bool) (m : Dict) (d : Decl)
    (h : (m.map (fun q => q.1)).Nodup) : ((processDecl b m d).map (fun q => q.1)).Nodup := by
  unfold processDecl
  by_cases he : excluded d = true
  · rwa [if_pos he]
  · rw [if_neg he]
    exact keys_dinsert_nodup m _ _ h

theorem keys_processSection_nodup (b : Bool) (m : Dict) (ds : List Decl)
    (h : (m.map (fun q => q.1)).Nodup) : ((processSection b m ds).map (fun q => q.1)).Nodup := by
  induction ds generalizing m with
  | nil => exact h
  | cons d t ih => exact ih _ (keys_processDecl_nodup b m d h)

/-! ### Interface-loop lemmas -/

theorem processInterfaces_ok (recurse : String → Categories) (env : Env) (acc : Categories)
    (L : List (Option String)) (h : none ∉ L) :
    (processInterfaces recurse env acc L).2 = true := by
  induction L generalizing acc with
  | nil => rfl
  | cons o t ih =>
    cases o with
    | none => exact absurd (List.mem_cons_self _ _) h
    | some nm =>
      have ht : none ∉ t := fun hn => h (List.mem_cons_of_mem _ hn)
      cases hg : getDefPath env nm with
      | some ipath =>
        simp only [processInterfaces, hg]
        exact ih _ ht
      | none =>
        simp only [processInterfaces, hg]
        exact ih _ ht

/-- Every entry accumulated by the interface loop comes from its incoming
maps or from the result of one of the resolved recursive calls. -/
theorem processInterfaces_fst_some (recurse : String → Categories) (env : Env)
    (L : List (Option String)) (acc : Categories) (c : Cat) (k : String) (v : Desc)
    (h : dfind ((processInterfaces recurse env acc L).1.get c) k = some v) :
    dfind (acc.get c) k = some v ∨
      ∃ nm ipath, some nm ∈ L ∧ getDefPath env nm = some ipath ∧
        (k, v) ∈ (recurse ipath).get c := by
  induction L generalizing acc with
  | nil => exact Or.inl h
  | cons o t ih =>
    cases o with
    | none => exact Or.inl h
    | some nm =>
      cases hg : getDefPath env nm with
      | none =>
        simp only [processInterfaces, hg] at h
        rcases ih acc h with h' | ⟨nm', ipath', hmem, hgp, hkv⟩
        · exact Or.inl h'
        · exact Or.inr ⟨nm', ipath', List.mem_cons_of_mem _ hmem, hgp, hkv⟩
      | some ipath =>
        simp only [processInterfaces, hg] at h
        rcases ih (mergeCats acc (recurse ipath)) h with h' | ⟨nm', ipath', hmem, hgp, hkv⟩
        · rw [mergeCats_get] at h'
          rcases dfind_dupdate_some _ _ _ _ h' with h3 | h3
          · exact Or.inl h3
          · exact Or.inr ⟨nm, ipath, List.mem_cons_self _ _, hg, h3⟩
        · exact Or.inr ⟨nm', ipath', List.mem_cons_of_mem _ hmem, hgp, hkv⟩

theorem keys_processInterfaces_nodup (recurse : String → Categories) (env : Env)
    (L : List (Option String)) (acc : Categories) (c : Cat)
    (h : ((acc.get c).map (fun q => q.1)).Nodup) :
    (((processInterfaces recurse env acc L).1.get c).map (fun q => q.1)).Nodup := by
  induction L generalizing acc with
  | nil => exact h
  | cons o t ih =>
    cases o with
    | none => exact h
    | some nm =>
      cases hg : getDefPath env nm with
      | none =>
        simp only [processInterfaces, hg]
        exact ih acc h
      | some ipath =>
        simp only [processInterfaces, hg]
        exact ih (mergeCats acc (recurse ipath))
          (by rw [mergeCats_get]; exact keys_dupdate_nodup _ _ h)

/-- The interface loop only consults the recursion at paths produced by
the resolver. -/
theorem processInterfaces_congr (r1 r2 : String → Categories) (env : Env)
    (L : List (Option String)) (acc : Categories)
    (h : ∀ nm ipath, getDefPath env nm = some ipath → r1 ipath = r2 ipath) :
    processInterfaces r1 env acc L = processInterfaces r2 env acc L := by
  induction L generalizing acc with
  | nil => rfl
  | cons o t ih =>
    cases o with
    | none => rfl
    | some nm =>
      cases hg : getDefPath env nm with
      | none =>
        simp only [processInterfaces, hg]
        exact ih acc
      | some ipath =>
        simp only [processInterfaces, hg]
        rw [h nm ipath hg]
        exact ih _

/-! ### Recursion lemmas for collectF -/

/-- A path already on the visitation list short-circuits to four empty
maps, whatever the fuel. -/
theorem collectF_mem (f : Nat) (env : Env) (p : String) (v : List String) (h : p ∈ v) :
    collectF f env p v = Categories.empty := by
  cases f <;> simp [collectF, h]

theorem collectF_zero (env : Env) (p : String) (v : List String) :
    collectF 0 env p v = Categories.empty := by
  by_cases h : p ∈ v <;> simp [collectF, h]

/-- A parse failure yields the freshly initialised (empty) maps. -/
theorem collectF_parse_none (f : Nat) (env : Env) (p : String) (v : List String)
    (h : parseFile env p = none) : collectF f env p v = Categories.empty := by
  by_cases hv : p ∈ v
  · exact collectF_mem f env p v hv
  · cases f with
    | zero => exact collectF_zero env p v
    | succ g => simp [collectF, hv, h]

theorem collectF_succ (g : Nat) (env : Env) (p : String) (v : List String) (node : DefNode)
    (hv : p ∉ v) (hp : parseFile env p = some node) :
    collectF (g + 1) env p v =
      (let r := processInterfaces (fun q => collectF g env q (v ++ [p])) env
        Categories.empty node.implements
       if r.2 then processLocals r.1 node else r.1) := by
  simp [collectF, hv, hp]

/-- Keys are unique in every category map `collect_methods` builds. -/
theorem keys_collectF_nodup (f : Nat) (env : Env) (p : String) (v : List String) (c : Cat) :
    (((collectF f env p v).get c).map (fun q => q.1)).Nodup := by
  by_cases hv : p ∈ v
  · rw [collectF_mem f env p v hv, empty_get]
    exact List.nodup_nil
  · cases f with
    | zero =>
      rw [collectF_zero, empty_get]
      exact List.nodup_nil
    | succ g =>
      cases hp : parseFile env p with
      | none =>
        rw [collectF_parse_none _ env p v hp, empty_get]
        exact List.nodup_nil
      | some node =>
        rw [collectF_succ g env p v node hv hp]
        have hr : ((((processInterfaces (fun q => collectF g env q (v ++ [p])) env
            Categories.empty node.implements).1.get c).map (fun q => q.1))).Nodup :=
          keys_processInterfaces_nodup _ env node.implements Categories.empty c
            (by rw [empty_get]; exact List.nodup_nil)
        by_cases hok : (processInterfaces (fun q => collectF g env q (v ++ [p])) env
            Categories.empty node.implements).2 = true
        · simp only [hok, if_true]
          rw [processLocals_get]
          exact keys_processSection_nodup _ _ _ hr
        · simp only [Bool.not_eq_true] at hok
          simp only [hok, Bool.false_eq_true, if_false]
          exact hr

/-- Provenance: every entry of any category map produced by the
resolution traces back to a non-excluded declaration of that name in some
parsed definition file, with exactly its descriptor.  No entry ever comes
from an excluded declaration, local or inherited. -/
theorem collectF_provenance (f : Nat) :
    ∀ (env : Env) (p : String) (v : List String) (c : Cat) (k : String) (w : Desc),
    dfind ((collectF f env p v).get c) k = some w →
    ∃ path node d, parseFile env path = some node ∧ d ∈ node.cat c ∧ d.tag = k ∧
      excluded d = false ∧ w = descOf c.isProp d := by
  induction f with
  | zero =>
    intro env p v c k w h
    rw [collectF_zero, empty_get] at h
    simp [dfind] at h
  | succ g ih =>
    intro env p v c k w h
    by_cases hv : p ∈ v
    · rw [collectF_mem _ env p v hv, empty_get] at h
      simp [dfind] at h
    · cases hp : parseFile env p with
      | none =>
        rw [collectF_parse_none _ env p v hp, empty_get] at h
        simp [dfind] at h
      | some node =>
        rw [collectF_succ g env p v node hv hp] at h
        have hacc : dfind ((processInterfaces (fun q => collectF g env q (v ++ [p])) env
            Categories.empty node.implements).1.get c) k = some w →
            ∃ path node d, parseFile env path = some node ∧ d ∈ node.cat c ∧ d.tag = k ∧
              excluded d = false ∧ w = descOf c.isProp d := by
          intro h'
          rcases processInterfaces_fst_some _ env node.implements Categories.empty c k w h' with
            h'' | ⟨nm, ipath, _, _, hkv⟩
          · rw [empty_get] at h''
            simp [dfind] at h''
          · exact ih env ipath (v ++ [p]) c k w
              (dfind_of_mem _ _ _ (keys_collectF_nodup g env ipath (v ++ [p]) c) hkv)
        by_cases hok : (processInterfaces (fun q => collectF g env q (v ++ [p])) env
            Categories.empty node.implements).2 = true
        · simp only [hok, if_true] at h
          rw [processLocals_get] at h
          rcases dfind_processSection_some _ _ _ _ _ h with h' | ⟨d, hd, ht, he, hw⟩
          · exact hacc h'
          · exact ⟨p, node, d, hp, hd, ht, he, hw⟩
        · simp only [Bool.not_eq_true] at hok
          simp only [hok, Bool.false_eq_true, if_false] at h
          exact hacc h

/-! ### Termination: fuel irrelevance -/

theorem getDefPath_mem_paths (env : Env) (nm q : String) (h : getDefPath env nm = some q) :
    q ∈ pathsOf env := by
  unfold getDefPath at h
  cases hf : env.defs.find? (fun r => r.1 == nm) with
  | none =>
    rw [hf] at h
    simp at h
  | some pr =>
    rw [hf] at h
    have h2 : pr.2 = q := by
      simpa using h
    exact List.mem_dedup.mpr (List.mem_map.mpr ⟨pr, List.mem_of_find?_eq_some hf, h2⟩)

theorem nodup_pathsOf (env : Env) : (pathsOf env).Nodup :=
  List.nodup_dedup _

theorem length_filter_snoc_mem (l : List String) (w : List String) (q : String)
    (hnd : l.Nodup) (hq : q ∈ l) (hw : q ∉ w) :
    (l.filter (fun x => !decide (x ∈ w ++ [q]))).length + 1 =
    (l.filter (fun x => !decide (x ∈ w))).length := by
  induction l with
  | nil => simp at hq
  | cons a t ih =>
    rw [List.nodup_cons] at hnd
    rw [List.filter_cons, List.filter_cons]
    by_cases haq : a = q
    · subst haq
      have h1 : (!decide (a ∈ w ++ [a])) = false := by simp
      have h2 : (!decide (a ∈ w)) = true := by simp [hw]
      rw [h1, h2]
      have ht : t.filter (fun x => !decide (x ∈ w ++ [a])) =
          t.filter (fun x => !decide (x ∈ w)) := by
        apply List.filter_congr
        intro x hx
        have hxa : x ≠ a := fun hh => hnd.1 (hh ▸ hx)
        simp [List.mem_append, hxa]
      rw [ht]
      simp
    · have hq' : q ∈ t := by
        rcases List.mem_cons.mp hq with h | h
        · exact absurd h.symm haq
        · exact h
      have heq : (!decide (a ∈ w ++ [q])) = (!decide (a ∈ w)) := by
        simp [List.mem_append, haq]
      rw [heq]
      by_cases hmem : a ∈ w
      · have : (!decide (a ∈ w)) = false := by simp [hmem]
        rw [this]
        simp only [Bool.false_eq_true, if_false]
        exact ih hnd.2 hq'
      · have : (!decide (a ∈ w)) = true := by simp [hmem]
        rw [this]
        simp only [if_true, List.length_cons]
        rw [← ih hnd.2 hq']

/-- Visiting one more producible, unvisited path decreases the count of
remaining paths by exactly one. -/
theorem remainingPaths_snoc (env : Env) (w : List String) (q : String)
    (hq : q ∈ pathsOf env) (hw : q ∉ w) :
    remainingPaths env (w ++ [q]) + 1 = remainingPaths env w :=
  length_filter_snoc_mem (pathsOf env) w q (nodup_pathsOf env) hq hw

/-- Fuel irrelevance: once the fuel exceeds the number of producible,
unvisited definition paths, the value of the recursion no longer depends
on it.  This is the termination argument of `collect_methods`: the
recursion bottoms out after at most that many nested pushes. -/
theorem collectF_fuel_invariant (f1 : Nat) :
    ∀ (f2 : Nat) (env : Env) (p : String) (v : List String),
    remainingPaths env (v ++ [p]) + 1 ≤ f1 → remainingPaths env (v ++ [p]) + 1 ≤ f2 →
    collectF f1 env p v = collectF f2 env p v := by
  induction f1 with
  | zero =>
    intro f2 env p v h1 h2
    omega
  | succ g1 ih =>
    intro f2 env p v h1 h2
    by_cases hv : p ∈ v
    · rw [collectF_mem _ env p v hv, collectF_mem _ env p v hv]
    · cases f2 with
      | zero => omega
      | succ g2 =>
        cases hp : parseFile env p with
        | none => rw [collectF_parse_none _ env p v hp, collectF_parse_none _ env p v hp]
        | some node =>
          rw [collectF_succ g1 env p v node hv hp, collectF_succ g2 env p v node hv hp]
          have hcongr : processInterfaces (fun q => collectF g1 env q (v ++ [p])) env
              Categories.empty node.implements =
              processInterfaces (fun q => collectF g2 env q (v ++ [p])) env
              Categories.empty node.implements := by
            apply processInterfaces_congr
            intro nm ipath hg
            by_cases hq : ipath ∈ v ++ [p]
            · rw [collectF_mem _ env _ _ hq, collectF_mem _ env _ _ hq]
            · have hdrop := remainingPaths_snoc env (v ++ [p]) ipath
                (getDefPath_mem_paths env nm ipath hg) hq
              exact ih g2 env ipath (v ++ [p]) (by omega) (by omega)
          rw [hcongr]

theorem remainingPaths_le_defs (env : Env) (v : List String) :
    remainingPaths env v ≤ env.defs.length := by
  unfold remainingPaths
  calc ((pathsOf env).filter (fun x => !decide (x ∈ v))).length
      ≤ (pathsOf env).length := List.length_filter_le _ _
    _ ≤ (env.defs.map (fun q => q.2)).length :=
        List.Sublist.length_le (List.dedup_sublist _)
    _ = env.defs.length := List.length_map _ _

/-- `collect_methods`' fixed fuel is sufficient: any larger budget
computes the same maps. -/
theorem collectF_eq_collect_methods (env : Env) (p : String) (f : Nat)
    (h : suffFuel env ≤ f) : collectF f env p [] = collect_methods env p := by
  unfold collect_methods
  have hb := remainingPaths_le_defs env ([] ++ [p])
  apply collectF_fuel_invariant
  · unfold suffFuel at h
    omega
  · unfold suffFuel
    omega

/-! ### The string order used by sorted() -/

theorem lexLe_total : ∀ (a b : List Char), lexLe a b || lexLe b a
  | [], _ => by simp [lexLe]
  | _ :: _, [] => by simp [lexLe]
  | x :: xs, y :: ys => by
    simp only [lexLe]
    rcases lt_trichotomy x y with h | h | h
    · simp [h]
    · simp [h, lt_irrefl, lexLe_total xs ys]
    · simp [h, not_lt_of_lt h]

theorem lexLe_trans : ∀ (a b c : List Char),
    lexLe a b = true → lexLe b c = true → lexLe a c = true
  | [], _, _, _, _ => by simp [lexLe]
  | x :: xs, [], _, h, _ => by simp [lexLe] at h
  | x :: xs, y :: ys, [], _, h => by simp [lexLe] at h
  | x :: xs, y :: ys, z :: zs, h1, h2 => by
    simp only [lexLe] at h1 h2 ⊢
    by_cases hxy : x < y
    · by_cases hyz : y < z
      · simp [lt_trans hxy hyz]
      · by_cases hzy : z < y
        · simp [hyz, hzy] at h2
        · have heq : y = z := le_antisymm (not_lt.mp hzy) (not_lt.mp hyz)
          subst heq
          simp [hxy]
    · by_cases hyx : y < x
      · simp [hxy, hyx] at h1
      · have heq : x = y := le_antisymm (not_lt.mp hyx) (not_lt.mp hxy)
        subst heq
        simp only [lt_irrefl, if_false] at h1
        by_cases hxz : x < z
        · simp [hxz]
        · by_cases hzx : z < x
          · simp [hxz, hzx] at h2
          · have heq2 : x = z := le_antisymm (not_lt.mp hzx) (not_lt.mp hxz)
            subst heq2
            simp only [lt_irrefl, if_false] at h2 ⊢
            exact lexLe_trans xs ys zs h1 h2

theorem strLeB_total (a b : String) : strLeB a b || strLeB b a :=
  lexLe_total a.data b.data

theorem strLeB_trans (a b c : String) : strLeB a b → strLeB b c → strLeB a c :=
  fun h1 h2 => lexLe_trans a.data b.data c.data h1 h2

/-- The sorted key list is sorted under the code-point order. -/
theorem sortedKeys_sorted (d : Dict) :
    (sortedKeys d).Pairwise (fun a b => strLeB a b = true) :=
  List.sorted_mergeSort strLeB_trans strLeB_total _

/-- The sorted key list is a permutation of the map's keys. -/
theorem sortedKeys_perm (d : Dict) : (sortedKeys d).Perm (d.map (fun q => q.1)) :=
  List.mergeSort_perm _ _

/-! ### Concrete environments used by the claims -/

/-- A node with only `Implements`, `ClientMethods` and `Properties`
content (the test environments do not need the other two sections). -/
def mkNode (impl : List (Option String)) (cm props : List Decl) : DefNode :=
  { implements := impl, clientMethods := cm, properties := props
    cellMethods := [], baseMethods := [] }

/-- Interface `Shared` declares property `health` of type `FLOAT`; entity
`Tank` implements `Shared` only (the scenario of the spec's section 8). -/
def envTankShared : Env :=
  { defs := [("Shared", "Shared.def"), ("Tank", "Tank.def")]
    files :=
      [ ("Shared.def", some (mkNode [] [] [⟨"health", [], false, some "FLOAT"⟩]))
      , ("Tank.def", some (mkNode [some "Shared"] [] [])) ] }

/-- Diamond: `A` implements `B` and `C`; both `B` and `C` implement `D`;
`D` declares `dm(INT32)`. -/
def envDiamond : Env :=
  { defs := [("A", "A.def"), ("B", "B.def"), ("C", "C.def"), ("D", "D.def")]
    files :=
      [ ("A.def", some (mkNode [some "B", some "C"] [] []))
      , ("B.def", some (mkNode [some "D"] [] []))
      , ("C.def", some (mkNode [some "D"] [] []))
      , ("D.def", some (mkNode [] [⟨"dm", ["INT32"], false, none⟩] [])) ] }

/-- Cycle: `A` implements `B`, `B` implements `A` (back edge) and also
the acyclic `C`; every node declares one method of its own. -/
def envCycle : Env :=
  { defs := [("A", "A.def"), ("B", "B.def"), ("C", "C.def")]
    files :=
      [ ("A.def", some (mkNode [some "B"] [⟨"am", ["INT32"], false, none⟩] []))
      , ("B.def", some (mkNode [some "A", some "C"] [⟨"bm", ["INT8"], false, none⟩] []))
      , ("C.def", some (mkNode [] [⟨"cm", ["FLOAT"], false, none⟩] [])) ] }

def takeDamageLocal : Decl := ⟨"takeDamage", ["INT32", "STRING"], false, none⟩

def pingLocal : Decl := ⟨"ping", [], false, none⟩

/-- The spec's Vehicle scenario: `Vehicle` implements `Damageable`
(declares `takeDamage(INT32)`) and locally declares
`takeDamage(INT32, STRING)` and the zero-argument `ping()`. -/
def envVehicle : Env :=
  { defs := [("Damageable", "Damageable.def"), ("Vehicle", "Vehicle.def")]
    files :=
      [ ("Damageable.def", some (mkNode [] [⟨"takeDamage", ["INT32"], false, none⟩] []))
      , ("Vehicle.def", some (mkNode [some "Damageable"] [takeDamageLocal, pingLocal] [])) ] }

/-- Two interfaces declaring the same method name, implemented in
declaration order `I1`, then `I2`. -/
def envIfaceOrder : Env :=
  { defs := [("E", "E.def"), ("I1", "I1.def"), ("I2", "I2.def")]
    files :=
      [ ("E.def", some (mkNode [some "I1", some "I2"] [] []))
      , ("I1.def", some (mkNode [] [⟨"m", ["INT8"], false, none⟩] []))
      , ("I2.def", some (mkNode [] [⟨"m", ["INT16"], false, none⟩] [])) ] }

/-- Inherited `m(INT32)`; the local `m` declarations are excluded (one
zero-argument, one carrying a DetailDistance marker). -/
def envInherit : Env :=
  { defs := [("E", "E.def"), ("I", "I.def")]
    files :=
      [ ("E.def", some (mkNode [some "I"]
          [⟨"m", [], false, none⟩, ⟨"m", ["FLOAT"], true, none⟩] []))
      , ("I.def", some (mkNode [] [⟨"m", ["INT32"], false, none⟩] [])) ] }

/-- A malformed `Implements` entry (`none`, an `<Interface>` element with
no text) after a perfectly good interface. -/
def envPartial : Env :=
  { defs := [("I", "I.def"), ("P", "P.def")]
    files :=
      [ ("I.def", some (mkNode [] [⟨"m", ["INT32"], false, none⟩] []))
      , ("P.def", some (mkNode [some "I", none] [⟨"local", ["INT8"], false, none⟩] [])) ] }

/-- A definition path whose content fails to parse. -/
def envBadParse : Env :=
  { defs := [("X", "X.def")], files := [("X.def", none)] }

/-- `E` implements the unresolvable `Ghost` first and the good `I2`
second. -/
def envMissing : Env :=
  { defs := [("E", "E.def"), ("I2", "I2.def")]
    files :=
      [ ("E.def", some (mkNode [some "Ghost", some "I2"] [] []))
      , ("I2.def", some (mkNode [] [⟨"good", ["INT32"], false, none⟩] [])) ] }

/-- One file declaring `m` twice (second occurrence excluded) and `n`
twice (first occurrence excluded). -/
def envDup : Env :=
  { defs := [("E", "E.def")]
    files :=
      [ ("E.def", some (mkNode []
          [ ⟨"m", ["INT32"], false, none⟩, ⟨"m", [], false, none⟩
          , ⟨"n", [], false, none⟩, ⟨"n", ["FLOAT"], false, none⟩ ] [])) ] }

/-! ### Claim theorems -/

/-- Claim C1: the claim states that property declarations are never
excluded by the zero-argument rule and that `Tank`'s Properties map is
`health : FLOAT`.  The code applies the zero-`Arg` exclusion to every
category, `Properties` included: `health` (which has a `Type` child but
no `Arg` children) is excluded, both maps come out empty, contradicting
the claim.  This theorem evaluates the code at the failing input. -/
theorem c1_property_zero_arg_excluded :
    excluded ⟨"health", [], false, some "FLOAT"⟩ = true ∧
    (collect_methods envTankShared "Tank.def").properties = [] ∧
    (collect_methods envTankShared "Shared.def").properties = [] ∧
    collect_methods envTankShared "Tank.def" = Categories.empty := by
  refine ⟨by decide, by decide, by decide, by decide⟩

/-- Claim C2 counterexample: in the diamond `A -> B,C`, `B -> D`,
`C -> D`, the identifier `D.def` is encountered twice in the call tree
(the recorded call trace shows both encounters), but because the
identifier is popped on exit, the visitation list at the second encounter
is only the ancestor chain `[A.def, C.def]`; the second encounter does
not return four empty maps — it returns `D`'s members. -/
theorem c2_diamond_counterexample :
    ("D.def", ["A.def", "B.def"]) ∈ callsF 5 envDiamond "A.def" [] ∧
    ("D.def", ["A.def", "C.def"]) ∈ callsF 5 envDiamond "A.def" [] ∧
    collectF 3 envDiamond "D.def" ["A.def", "C.def"] =
      ⟨[("dm", Desc.method ["INT32"])], [], [], []⟩ ∧
    collectF 3 envDiamond "D.def" ["A.def", "C.def"] ≠ Categories.empty := by
  refine ⟨by decide, by decide, by decide, by decide⟩

/-- Claim C2 (amended): the visitation list is shared across the call
tree but pruned on every exit, so only identifiers on the current
ancestor chain short-circuit (any such re-encounter returns four empty
maps); an identifier from an already-completed sibling branch is
processed again (second conjunct), which leaves the final merged result
unchanged (third conjunct). -/
theorem c2_visitation_scope :
    (∀ (f : Nat) (env : Env) (p : String) (v : List String), p ∈ v →
      collectF f env p v = Categories.empty) ∧
    collectF 3 envDiamond "D.def" ["A.def", "C.def"] =
      ⟨[("dm", Desc.method ["INT32"])], [], [], []⟩ ∧
    collect_methods envDiamond "A.def" =
      ⟨[("dm", Desc.method ["INT32"])], [], [], []⟩ := by
  refine ⟨fun f env p v h => collectF_mem f env p v h, by decide, by decide⟩

theorem c2_visitation_scope_witness :
    collectF 2 envDiamond "B.def" ["A.def", "B.def"] = Categories.empty :=
  c2_visitation_scope.1 2 envDiamond "B.def" ["A.def", "B.def"] (by decide)

/-- Claim C3: inherited entries are merged before local declarations and
a non-excluded local declaration (with no later local declaration of the
same name) determines the final entry, whatever any interface
contributed; and interfaces are processed in declaration order with the
later interface overriding the earlier one for a colliding name
(concrete second conjunct: `I1` declares `m(INT8)`, `I2` declares
`m(INT16)`, the final map holds `INT16`). -/
theorem c3_merge_precedence :
    (∀ (g : Nat) (env : Env) (p : String) (v : List String) (node : DefNode)
      (pre post : List Decl) (d : Decl),
      p ∉ v → parseFile env p = some node → none ∉ node.implements →
      node.clientMethods = pre ++ d :: post → excluded d = false →
      (∀ d' ∈ post, d'.tag ≠ d.tag) →
      dfind (collectF (g + 1) env p v).clientMethods d.tag = some (Desc.method d.args)) ∧
    collect_methods envIfaceOrder "E.def" =
      ⟨[("m", Desc.method ["INT16"])], [], [], []⟩ := by
  constructor
  · intro g env p v node pre post d hv hp himpl hcm hex hpost
    rw [collectF_succ g env p v node hv hp]
    have hok := processInterfaces_ok (fun q => collectF g env q (v ++ [p])) env
      Categories.empty node.implements himpl
    simp only [hok, if_true]
    have : (processLocals (processInterfaces (fun q => collectF g env q (v ++ [p])) env
        Categories.empty node.implements).1 node).clientMethods =
        processSection false (processInterfaces (fun q => collectF g env q (v ++ [p])) env
        Categories.empty node.implements).1.clientMethods node.clientMethods := rfl
    rw [this, hcm]
    exact dfind_processSection_last false _ pre post d hex
      (fun d' hd' htag => absurd htag (hpost d' hd'))
  · decide

theorem c3_merge_precedence_witness :
    dfind (collectF 3 envVehicle "Vehicle.def" []).clientMethods "takeDamage" =
      some (Desc.method ["INT32", "STRING"]) :=
  c3_merge_precedence.1 2 envVehicle "Vehicle.def" []
    (mkNode [some "Damageable"] [takeDamageLocal, pingLocal] [])
    [] [pingLocal] takeDamageLocal
    (by decide) (by decide) (by decide) (by decide) (by decide) (by decide)

/-- Claim C4: every entry of any final category map traces back to a
declaration with no DetailDistance marker and a non-empty argument list
(first conjunct: nothing in the output ever comes from an excluded
declaration, locally declared or inherited); a run of declarations that
are all excluded at a name leaves the lookup at that name unchanged
(second conjunct: an excluded local is simply never written); and
concretely, with `m(INT32)` inherited and both local `m` declarations
excluded, the inherited entry survives (third conjunct). -/
theorem c4_exclusion :
    (∀ (env : Env) (p : String) (c : Cat) (k : String) (w : Desc),
      dfind ((collect_methods env p).get c) k = some w →
      ∃ path node d, parseFile env path = some node ∧ d ∈ node.cat c ∧ d.tag = k ∧
        d.hasDetailDistance = false ∧ d.args ≠ [] ∧ w = descOf c.isProp d) ∧
    (∀ (b : Bool) (m : Dict) (ds : List Decl) (k : String),
      (∀ d ∈ ds, d.tag = k → excluded d = true) →
      dfind (processSection b m ds) k = dfind m k) ∧
    collect_methods envInherit "E.def" = ⟨[("m", Desc.method ["INT32"])], [], [], []⟩ := by
  refine ⟨?_, dfind_processSection_all_excluded, by decide⟩
  intro env p c k w h
  rcases collectF_provenance (suffFuel env) env p [] c k w h with
    ⟨path, node, d, h1, h2, h3, h4, h5⟩
  have hsplit := Bool.or_eq_false_iff.mp h4
  refine ⟨path, node, d, h1, h2, h3, hsplit.1, ?_, h5⟩
  intro hnil
  have := hsplit.2
  rw [hnil] at this
  simp at this

theorem c4_exclusion_witness :
    ∃ path node d, parseFile envInherit path = some node ∧ d ∈ node.cat Cat.clientMethods ∧
      d.tag = "m" ∧ d.hasDetailDistance = false ∧ d.args ≠ [] ∧
      Desc.method ["INT32"] = descOf Cat.clientMethods.isProp d :=
  c4_exclusion.1 envInherit "E.def" Cat.clientMethods "m" (Desc.method ["INT32"]) (by decide)

/-- Claim C5: the recursion terminates on every definition set — once the
fuel exceeds the number of producible, unvisited paths the value is fixed
(first conjunct) — and on the concrete cycle `A -> B -> A` the re-entry
of `A` short-circuits to four empty maps (third conjunct) while the
non-cyclic branch through `C` still contributes `cm`, alongside `A`'s and
`B`'s own members (second conjunct). -/
theorem c5_cycle_termination :
    (∀ (f1 f2 : Nat) (env : Env) (p : String) (v : List String),
      remainingPaths env (v ++ [p]) + 1 ≤ f1 → remainingPaths env (v ++ [p]) + 1 ≤ f2 →
      collectF f1 env p v = collectF f2 env p v) ∧
    collect_methods envCycle "A.def" =
      ⟨[("cm", Desc.method ["FLOAT"]), ("bm", Desc.method ["INT8"]),
        ("am", Desc.method ["INT32"])], [], [], []⟩ ∧
    collectF 2 envCycle "A.def" ["A.def", "B.def"] = Categories.empty := by
  refine ⟨fun f1 f2 env p v h1 h2 => collectF_fuel_invariant f1 f2 env p v h1 h2,
    by decide, by decide⟩

theorem c5_cycle_termination_witness :
    collectF 4 envCycle "A.def" [] = collectF 7 envCycle "A.def" [] :=
  c5_cycle_termination.1 4 7 envCycle "A.def" [] (by decide) (by decide)

/-- Claim C7 counterexample: node `P.def` implements the good `I` and
then carries a malformed `Implements` entry on which processing raises
(first conjunct: the loop reports failure).  The failure is caught, but
the node contributes the partially accumulated maps — `I`'s inherited
member `m` — rather than four empty maps, and its own local declarations
are skipped; this contradicts "identical to NotFound, not a partial
result". -/
theorem c7_partial_result_counterexample :
    (processInterfaces (fun q => collectF 2 envPartial q ["P.def"]) envPartial
      Categories.empty [some "I", none]).2 = false ∧
    collect_methods envPartial "P.def" =
      ⟨[("m", Desc.method ["INT32"])], [], [], []⟩ ∧
    collect_methods envPartial "P.def" ≠ Categories.empty := by
  refine ⟨by decide, by decide, by decide⟩

/-- Claim C7 (amended): a failure to parse the definition content yields
four empty maps for that node, whatever the fuel or visitation state
(first conjunct); a failure while processing an already-parsed node is
caught locally but contributes the partially accumulated maps —
interfaces merged before the failure point, local declarations skipped —
which need not be empty (second conjunct); in neither case does the
failure propagate to the caller. -/
theorem c7_parse_failure_empty :
    (∀ (f : Nat) (env : Env) (p : String) (v : List String),
      parseFile env p = none → collectF f env p v = Categories.empty) ∧
    collect_methods envPartial "P.def" =
      ⟨[("m", Desc.method ["INT32"])], [], [], []⟩ :=
  ⟨fun f env p v h => collectF_parse_none f env p v h, by decide⟩

theorem c7_parse_failure_empty_witness :
    collectF 1 envBadParse "X.def" [] = Categories.empty :=
  c7_parse_failure_empty.1 1 envBadParse "X.def" [] (by decide)

/-- Claim C8: an interface name the resolver cannot resolve is skipped —
the interface loop on `pre ++ [missing] ++ post` computes exactly what it
computes on `pre ++ post`, so the miss contributes nothing and the
remaining interfaces proceed (first conjunct); concretely, `E`
implementing the unresolvable `Ghost` before `I2` still inherits `I2`'s
member (second conjunct). -/
theorem c8_notfound_skipped :
    (∀ (recurse : String → Categories) (env : Env) (acc : Categories)
      (pre post : List (Option String)) (nm : String),
      getDefPath env nm = none →
      processInterfaces recurse env acc (pre ++ some nm :: post) =
        processInterfaces recurse env acc (pre ++ post)) ∧
    collect_methods envMissing "E.def" =
      ⟨[("good", Desc.method ["INT32"])], [], [], []⟩ := by
  constructor
  · intro recurse env acc pre post nm hg
    induction pre generalizing acc with
    | nil => simp [processInterfaces, hg]
    | cons o t ih =>
      cases o with
      | none => rfl
      | some nm2 =>
        cases hg2 : getDefPath env nm2 with
        | none =>
          simp only [List.cons_append, processInterfaces, hg2]
          exact ih acc
        | some ipath =>
          simp only [List.cons_append, processInterfaces, hg2]
          exact ih _
  · decide

theorem c8_notfound_skipped_witness :
    processInterfaces (fun q => collectF 2 envMissing q ["E.def"]) envMissing
      Categories.empty [some "Ghost", some "I2"] =
    processInterfaces (fun q => collectF 2 envMissing q ["E.def"]) envMissing
      Categories.empty [some "I2"] :=
  c8_notfound_skipped.1 (fun q => collectF 2 envMissing q ["E.def"]) envMissing
    Categories.empty [] [some "I2"] "Ghost" (by decide)

/-- Claim C9: `collect_methods` is deterministic — its value is a pure
function of the environment and the entity path; any two runs (here: any
two sufficient fuel budgets, each at least the fixed budget the program
uses) produce identical four-category maps, equal to
`collect_methods env p`. -/
theorem c9_deterministic (env : Env) (p : String) (f1 f2 : Nat)
    (h1 : suffFuel env ≤ f1) (h2 : suffFuel env ≤ f2) :
    collectF f1 env p [] = collectF f2 env p [] ∧
    collectF f1 env p [] = collect_methods env p := by
  constructor
  · rw [collectF_eq_collect_methods env p f1 h1, collectF_eq_collect_methods env p f2 h2]
  · exact collectF_eq_collect_methods env p f1 h1

theorem c9_deterministic_witness :
    collectF 4 envCycle "A.def" [] = collectF 9 envCycle "A.def" [] ∧
    collectF 4 envCycle "A.def" [] = collect_methods envCycle "A.def" :=
  c9_deterministic envCycle "A.def" 4 9 (by decide) (by decide)

/-- Claim C10: keys are unique in every final category map (first
conjunct); within one file, the last non-excluded declaration of a name
determines its entry (second conjunct); and concretely, with `m`
declared as `m(INT32)` then as an excluded zero-argument `m`, and `n`
declared excluded first then as `n(FLOAT)`, the final map holds exactly
one entry per name: `m(INT32)` (the excluded later duplicate left the
earlier entry in place) and `n(FLOAT)` (third conjunct). -/
theorem c10_duplicate_local_names :
    (∀ (env : Env) (p : String) (c : Cat),
      (((collect_methods env p).get c).map (fun q => q.1)).Nodup) ∧
    (∀ (b : Bool) (m : Dict) (pre post : List Decl) (d : Decl),
      excluded d = false → (∀ d' ∈ post, d'.tag = d.tag → excluded d' = true) →
      dfind (processSection b m (pre ++ d :: post)) d.tag = some (descOf b d)) ∧
    collect_methods envDup "E.def" =
      ⟨[("m", Desc.method ["INT32"]), ("n", Desc.method ["FLOAT"])], [], [], []⟩ :=
  ⟨fun env p c => keys_collectF_nodup (suffFuel env) env p [] c,
   fun b m pre post d hex hpost => dfind_processSection_last b m pre post d hex hpost,
   by decide⟩

theorem c10_duplicate_local_names_witness :
    dfind (processSection false []
      ([] ++ (⟨"m", ["INT32"], false, none⟩ : Decl) :: [⟨"m", [], false, none⟩])) "m" =
      some (descOf false ⟨"m", ["INT32"], false, none⟩) :=
  c10_duplicate_local_names.2.1 false [] [] [⟨"m", [], false, none⟩]
    ⟨"m", ["INT32"], false, none⟩ (by decide) (by decide)

/-- Index projection of `to_indexed_dict`: each entry keeps its name and
its position in the sorted key list. -/
theorem to_indexed_dict_pairs (d : Dict) :
    (to_indexed_dict d).map (fun x => (x.1, x.2.1)) = (sortedKeys d).enum := by
  have h : ((fun x : Nat × String × Desc => (x.1, x.2.1)) ∘
      (fun ik : Nat × String => (ik.1, ik.2, (dfind d ik.2).getD (Desc.method [])))) =
      id := by
    funext ik
    rfl
  rw [to_indexed_dict, List.map_map, h, List.map_id]

unseal List.merge List.mergeSort in
theorem to_indexed_dict_example_eval :
    to_indexed_dict [("onHealthChanged", Desc.method ["FLOAT"]),
        ("onAmmoChanged", Desc.method ["INT32"])] =
      [(0, "onAmmoChanged", Desc.method ["INT32"]),
       (1, "onHealthChanged", Desc.method ["FLOAT"])] := by
  decide

/-- Claim C6: `to_indexed_dict` assigns the keys `0..n-1` in order (first
conjunct), pairing them with the member names in sorted order (second
conjunct), where the sort is the plain code-point lexicographic order
(third conjunct) over exactly the map's member names (fourth conjunct);
the index-to-name assignment is a pure function of the sorted name list
(fifth conjunct); and the two-method example assigns
`0 -> onAmmoChanged`, `1 -> onHealthChanged` (sixth conjunct).  The same
function is applied to all four categories. -/
theorem c6_index_assignment :
    (∀ d : Dict, (to_indexed_dict d).map (fun x => x.1) =
      List.range (sortedKeys d).length) ∧
    (∀ d : Dict, (to_indexed_dict d).map (fun x => x.2.1) = sortedKeys d) ∧
    (∀ d : Dict, (sortedKeys d).Pairwise (fun a b => strLeB a b = true)) ∧
    (∀ d : Dict, (sortedKeys d).Perm (d.map (fun q => q.1))) ∧
    (∀ d1 d2 : Dict, sortedKeys d1 = sortedKeys d2 →
      (to_indexed_dict d1).map (fun x => (x.1, x.2.1)) =
        (to_indexed_dict d2).map (fun x => (x.1, x.2.1))) ∧
    to_indexed_dict [("onHealthChanged", Desc.method ["FLOAT"]),
        ("onAmmoChanged", Desc.method ["INT32"])] =
      [(0, "onAmmoChanged", Desc.method ["INT32"]),
       (1, "onHealthChanged", Desc.method ["FLOAT"])] := by
  refine ⟨?_, ?_, sortedKeys_sorted, sortedKeys_perm, ?_, to_indexed_dict_example_eval⟩
  · intro d
    have h : ((fun x : Nat × String × Desc => x.1) ∘
        (fun ik : Nat × String => (ik.1, ik.2, (dfind d ik.2).getD (Desc.method [])))) =
        Prod.fst := by
      funext ik
      rfl
    rw [to_indexed_dict, List.map_map, h, List.enum_map_fst]
  · intro d
    have h : ((fun x : Nat × String × Desc => x.2.1) ∘
        (fun ik : Nat × String => (ik.1, ik.2, (dfind d ik.2).getD (Desc.method [])))) =
        Prod.snd := by
      funext ik
      rfl
    rw [to_indexed_dict, List.map_map, h, List.enum_map_snd]
  · intro d1 d2 h
    rw [to_indexed_dict_pairs, to_indexed_dict_pairs, h]

theorem c6_index_assignment_witness :
    (to_indexed_dict [("k", Desc.method ["A"])]).map (fun x => (x.1, x.2.1)) =
      (to_indexed_dict [("k", Desc.prop "B")]).map (fun x => (x.1, x.2.1)) :=
  c6_index_assignment.2.2.2.2.1 [("k", Desc.method ["A"])] [("k", Desc.prop "B")]
    (by simp [sortedKeys])
